import Mathlib

/-!
Verification development for the QNET symbolic-to-numeric conversion layer
(`qnet/convert/to_qutip.py`).

The data model of the conversion engine is shallowly embedded:

* complex scalars are modelled as pairs of rationals (`CQ`);
* qutip dense matrices are lists of rows (`Mat`), `qutip.Qobj` values carry
  their row/column dimension lists and the explicitly assigned hermiticity
  flag (`none` models qutip's lazily computed flag);
* Hilbert spaces: a `LocalSpace` is a named degree of freedom with a finite
  dimension; a composite space is its canonically ordered duplicate-free
  list of local factors (modelled from the spec: the hilbert-space algebra
  module itself is not part of the excerpt);
* symbolic scalars (`SymExpr`) and the operator / ket expression trees
  (`OpExpr`, `KetExpr`) mirror the expression classes consumed by
  `convert_to_qutip`;
* transcendental qutip/scipy primitives (`create`, `displace`, `coherent`,
  `cos`/`sin`, `pinv`, `svd`) are external library calls and are therefore
  abstracted into a `QutipPrims` bundle that all conversion functions take
  as a parameter; every theorem below holds for an arbitrary bundle.

Python exceptions are modelled by an error type threaded through `Except`;
the recursion of the converter is driven by explicit fuel (the source
recursion has no structural termination measure because the
`OperatorTimes` branch recurses on `expr.expand()`).
-/

set_option autoImplicit false

namespace QNET

/-- Complex numbers with rational components; models the exact content of
the floating-point complex scalars flowing through the converter. -/
structure CQ where
  re : ℚ
  im : ℚ
deriving DecidableEq, Repr

def CQ.zero : CQ := ⟨0, 0⟩

def CQ.one : CQ := ⟨1, 0⟩

def CQ.add (a b : CQ) : CQ := ⟨a.re + b.re, a.im + b.im⟩

def CQ.mul (a b : CQ) : CQ := ⟨a.re * b.re - a.im * b.im, a.re * b.im + a.im * b.re⟩

def CQ.conj (a : CQ) : CQ := ⟨a.re, -a.im⟩

/-- Dense matrix: list of rows. -/
def Mat := List (List CQ)

instance : DecidableEq Mat := by unfold Mat; infer_instance

def sumC (l : List CQ) : CQ := l.foldl CQ.add CQ.zero

def matAdd (a b : Mat) : Mat := List.zipWith (List.zipWith CQ.add) a b

def matMul (a b : Mat) : Mat :=
  let bt := List.transpose b
  a.map (fun row => bt.map (fun col => sumC (List.zipWith CQ.mul row col)))

def smulMat (c : CQ) (a : Mat) : Mat := a.map (List.map (CQ.mul c))

/-- Kronecker product of dense matrices (`qutip.tensor` on the data). -/
def kron (a b : Mat) : Mat :=
  a.flatMap (fun ra => b.map (fun rb => ra.flatMap (fun x => rb.map (CQ.mul x))))

/-- Conjugate transpose of the data (`.conjugate().transpose()`). -/
def conjTrans (a : Mat) : Mat := (List.transpose a).map (List.map CQ.conj)

def idMat (n : ℕ) : Mat :=
  (List.range n).map (fun i => (List.range n).map (fun j => if i = j then CQ.one else CQ.zero))

def zeroMat (n : ℕ) : Mat :=
  (List.range n).map (fun _ => (List.range n).map (fun _ => CQ.zero))

/-- One-hot column vector of length `n` with the 1 at row `i`
(`qutip.basis(n, i)` data). -/
def basisCol (n i : ℕ) : Mat :=
  (List.range n).map (fun r => [if r = i then CQ.one else CQ.zero])

/-- Model of `qutip.Qobj`: dense data plus the `dims` metadata
(`[[row dims], [col dims]]`).  `isherm` models the hermiticity flag;
`none` stands for qutip's lazily computed value, `some b` for a flag the
converter assigned explicitly (it does so only in the pseudo-inverse and
null-space-projector branches). -/
structure Qobj where
  rowDims : List ℕ
  colDims : List ℕ
  data : Mat
  isherm : Option Bool
deriving DecidableEq

/-- `qutip.qeye(n)`. -/
def qeyeQ (n : ℕ) : Qobj := ⟨[n], [n], idMat n, none⟩

/-- `qutip.Qobj(csr_matrix((n, n)))`: the `n×n` all-zero operator. -/
def qzeroQ (n : ℕ) : Qobj := ⟨[n], [n], zeroMat n, none⟩

/-- `qutip.basis(n, i)`: one-hot ket vector. -/
def qbasisQ (n i : ℕ) : Qobj := ⟨[n], [1], basisCol n i, none⟩

/-- Qobj addition.  qutip requires equal `dims` on both operands; all call
sites in the converter add objects built over the same ambient space, so
the left operand's dims are kept. -/
def qadd (a b : Qobj) : Qobj := ⟨a.rowDims, a.colDims, matAdd a.data b.data, none⟩

/-- Qobj multiplication (`*` on `qutip.Qobj`). -/
def qmul (a b : Qobj) : Qobj := ⟨a.rowDims, b.colDims, matMul a.data b.data, none⟩

/-- Scalar times Qobj. -/
def qscal (c : CQ) (a : Qobj) : Qobj := ⟨a.rowDims, a.colDims, smulMat c a.data, none⟩

/-- Binary `qutip.tensor`: Kronecker product of the data, concatenation of
the dims. -/
def qtensor2 (a b : Qobj) : Qobj :=
  ⟨a.rowDims ++ b.rowDims, a.colDims ++ b.colDims, kron a.data b.data, none⟩

/-- Python exceptions raised (or propagated) by the conversion layer. -/
inductive PyErr where
  /-- `ValueError("expr must be in full_space")`: the space-compatibility
  error of `convert_to_qutip` (the spec's `IncompatibleSpaceError`). -/
  | incompatibleSpace
  /-- `ValueError("full_space %s does not have local factors")`. -/
  | noLocalFactors
  /-- `ValueError("Cannot convert '%s' of type %s")`. -/
  | cannotConvert
  /-- `ValueError("Cannot represent as QuTiP object: ...")`: a product that
  does not change under `expand()`. -/
  | cannotRepresent
  /-- `NotImplementedError` with the given message. -/
  | notImplemented (msg : String)
  /-- A Python `TypeError` (e.g. `qutip.dag` applied to a non-`Qobj`,
  `complex()` applied to a symbolic scalar, or concatenating a `Qobj`
  onto a Python list). -/
  | typeError
  /-- A generic `ValueError` with the given message. -/
  | valueError (msg : String)
  /-- A failed `assert` statement. -/
  | assertionError
  /-- `IndexError` (e.g. `s[0]` on an empty singular-value array). -/
  | indexError
  /-- The fuel of the embedded recursion ran out; the Python source has no
  such case (its recursion is bounded only by the interpreter stack). -/
  | outOfFuel
deriving DecidableEq, Repr

/-- `qutip.tensor(*factors)`: errors on an empty argument list, otherwise
left-folds the binary tensor product. -/
def qutipTensor : List Qobj → Except PyErr Qobj
  | [] => .error (.valueError "Requires at least one input argument")
  | q :: qs => .ok (qs.foldl qtensor2 q)

/-- `qnet.algebra.abstract_algebra.prod`: `reduce(mul, sequence, 1)`.  The
leading Python integer `1` scalar-multiplies the first factor, which is the
exact identity on the data, so the fold starts from the first factor.  The
converter only calls this on non-empty groups; the empty case returns a
dimensionless placeholder. -/
def prodQ : List Qobj → Qobj
  | [] => ⟨[], [], [], none⟩
  | q :: qs => qs.foldl qmul q

/-- Monadic map that mirrors a Python list comprehension: elements are
processed left to right and the first exception aborts the whole
comprehension. -/
def mapME {α β : Type} (f : α → Except PyErr β) : List α → Except PyErr (List β)
  | [] => .ok []
  | a :: as => do
    let b ← f a
    let bs ← mapME f as
    .ok (b :: bs)

/-! ## Hilbert spaces

Modelled from the spec: the hilbert-space algebra module is not part of the
source excerpt.  A Local Hilbert Space has a name and a finite dimension; a
composite space is an ordered duplicate-free list of local factors
(canonical ordering by name), `local_factors()` returns that list,
`dimension` is the product of the local dimensions and
`is_tensor_factor_of` is factor-set inclusion. -/

/-- A local Hilbert space (one degree of freedom). -/
structure LocalSpace where
  name : ℕ
  dim : ℕ
deriving DecidableEq, Repr

/-- A composite Hilbert space, as its list of local factors. -/
abbrev HSpace := List LocalSpace

/-- Modelled from the spec: canonical form of a factor list — duplicates
removed, factors ordered by name. -/
def canonS (l : List LocalSpace) : List LocalSpace :=
  (l.dedup).insertionSort (fun a b => a.name ≤ b.name)

/-- Modelled from the spec: `HilbertSpace.dimension`, the product of the
local dimensions. -/
def hsDimension (fs : HSpace) : ℕ := (fs.map LocalSpace.dim).prod

/-- Modelled from the spec: `HilbertSpace.is_tensor_factor_of`, factor-set
inclusion. -/
def isTensorFactorOf (s fs : HSpace) : Bool := s.all (fun x => decide (x ∈ fs))

/-! ## Symbolic scalars

Modelled from the spec: the symbolic-algebra substrate (sympy) is an
external dependency; scalar expressions are trees of constants, named
symbols, sums and products that can be numerically evaluated under a
substitution. -/

/-- A symbolic scalar expression. -/
inductive SymExpr where
  | const : CQ → SymExpr
  | sym : String → SymExpr
  | add : SymExpr → SymExpr → SymExpr
  | mul : SymExpr → SymExpr → SymExpr
deriving DecidableEq, Repr

/-- Free symbols of a scalar expression (`free_symbols`, as a list whose
membership models the sympy set). -/
def SymExpr.freeSymbols : SymExpr → List String
  | .const _ => []
  | .sym s => [s]
  | .add a b => a.freeSymbols ++ b.freeSymbols
  | .mul a b => a.freeSymbols ++ b.freeSymbols

/-- Numeric evaluation under a partial environment; `none` models the
Python `NameError` raised by a lambdified function whose body mentions a
symbol the environment does not bind. -/
def SymExpr.evalSym (env : String → Option CQ) : SymExpr → Option CQ
  | .const c => some c
  | .sym s => env s
  | .add a b => do
    let x ← a.evalSym env
    let y ← b.evalSym env
    some (CQ.add x y)
  | .mul a b => do
    let x ← a.evalSym env
    let y ← b.evalSym env
    some (CQ.mul x y)

/-- `complex(expr)`: numeric evaluation of a closed scalar; raises
`TypeError` on a remaining free symbol (sympy behaviour). -/
def SymExpr.evalConst : SymExpr → Except PyErr CQ
  | .const c => .ok c
  | .sym _ => .error .typeError
  | .add a b => do
    let x ← a.evalConst
    let y ← b.evalConst
    .ok (CQ.add x y)
  | .mul a b => do
    let x ← a.evalConst
    let y ← b.evalConst
    .ok (CQ.mul x y)

/-- `str(expr)`: a plain printer, used by the `convert_as='str'` path. -/
def SymExpr.symStr : SymExpr → String
  | .const c => toString c.re ++ "+" ++ toString c.im ++ "*I"
  | .sym s => s
  | .add a b => "(" ++ a.symStr ++ " + " ++ b.symStr ++ ")"
  | .mul a b => "(" ++ a.symStr ++ "*" ++ b.symStr ++ ")"

/-! ## Expression trees -/

/-- The kinds of `LocalOperator` leaves handled by
`_convert_local_operator_to_qutip`. -/
inductive LocalOpKind where
  | create | destroy | jz | jplus | jminus
  | phase : SymExpr → LocalOpKind
  | displace : SymExpr → LocalOpKind
  | squeeze : SymExpr → LocalOpKind
  | localSigma : ℕ → ℕ → LocalOpKind
deriving DecidableEq, Repr

/-- Operator expressions (the operator-algebra fragment consumed by
`convert_to_qutip`). -/
inductive OpExpr where
  /-- The space-agnostic `IdentityOperator` singleton. -/
  | identityOp
  /-- The space-agnostic `ZeroOperator` singleton. -/
  | zeroOp
  /-- A `LocalOperator` leaf acting on a local space. -/
  | localOp : LocalSpace → LocalOpKind → OpExpr
  /-- `OperatorPlus`. -/
  | plus : List OpExpr → OpExpr
  /-- `OperatorTimes`. -/
  | times : List OpExpr → OpExpr
  /-- `ScalarTimesOperator` (`coeff`, `term`). -/
  | scalarTimes : SymExpr → OpExpr → OpExpr
  /-- `Adjoint` of an operator. -/
  | adjoint : OpExpr → OpExpr
  /-- `PseudoInverse`. -/
  | pseudoInverse : OpExpr → OpExpr
  /-- `NullSpaceProjector`. -/
  | nullSpaceProjector : OpExpr → OpExpr
  /-- `OperatorTrace` (unexpanded trace). -/
  | operatorTrace : OpExpr → OpExpr

/-- Ket expressions (the state-algebra fragment consumed by
`_convert_ket_to_qutip`). -/
inductive KetExpr where
  /-- `BasisKet` with a basis-label index. -/
  | basisKet : LocalSpace → ℕ → KetExpr
  /-- `CoherentStateKet` with a complex amplitude. -/
  | coherent : LocalSpace → SymExpr → KetExpr
  /-- `KetPlus`. -/
  | ketPlus : List KetExpr → KetExpr
  /-- `TensorKet`. -/
  | tensorKet : List KetExpr → KetExpr
  /-- `ScalarTimesKet` (`coeff`, `term`). -/
  | scalarTimesKet : SymExpr → KetExpr → KetExpr
  /-- `OperatorTimesKet` (`coeff` is the operator, `term` the ket). -/
  | operatorTimesKet : OpExpr → KetExpr → KetExpr

/-- The runtime type union dispatched on by the single entry point
`convert_to_qutip`. -/
inductive QExpr where
  | op : OpExpr → QExpr
  | ket : KetExpr → QExpr

mutual

/-- Structural equality of operator expressions (the Python `==` used by
the converter, e.g. in `if se == expr`). -/
def obeq : OpExpr → OpExpr → Bool
  | .identityOp, .identityOp => true
  | .zeroOp, .zeroOp => true
  | .localOp s k, .localOp s' k' => decide (s = s') && decide (k = k')
  | .plus xs, .plus ys => obeqL xs ys
  | .times xs, .times ys => obeqL xs ys
  | .scalarTimes c e, .scalarTimes c' e' => decide (c = c') && obeq e e'
  | .adjoint e, .adjoint e' => obeq e e'
  | .pseudoInverse e, .pseudoInverse e' => obeq e e'
  | .nullSpaceProjector e, .nullSpaceProjector e' => obeq e e'
  | .operatorTrace e, .operatorTrace e' => obeq e e'
  | _, _ => false

def obeqL : List OpExpr → List OpExpr → Bool
  | [], [] => true
  | x :: xs, y :: ys => obeq x y && obeqL xs ys
  | _, _ => false

end

mutual

/-- Structural equality of ket expressions. -/
def kbeq : KetExpr → KetExpr → Bool
  | .basisKet s i, .basisKet s' i' => decide (s = s') && decide (i = i')
  | .coherent s a, .coherent s' a' => decide (s = s') && decide (a = a')
  | .ketPlus xs, .ketPlus ys => kbeqL xs ys
  | .tensorKet xs, .tensorKet ys => kbeqL xs ys
  | .scalarTimesKet c k, .scalarTimesKet c' k' => decide (c = c') && kbeq k k'
  | .operatorTimesKet a k, .operatorTimesKet a' k' => obeq a a' && kbeq k k'
  | _, _ => false

def kbeqL : List KetExpr → List KetExpr → Bool
  | [], [] => true
  | x :: xs, y :: ys => kbeq x y && kbeqL xs ys
  | _, _ => false

end

mutual

/-- The local spaces of the leaves of an operator expression, with
multiplicity, in tree order. -/
def leafSpaces : OpExpr → List LocalSpace
  | .identityOp => []
  | .zeroOp => []
  | .localOp s _ => [s]
  | .plus xs => leafSpacesL xs
  | .times xs => leafSpacesL xs
  | .scalarTimes _ e => leafSpaces e
  | .adjoint e => leafSpaces e
  | .pseudoInverse e => leafSpaces e
  | .nullSpaceProjector e => leafSpaces e
  | .operatorTrace e => leafSpaces e

def leafSpacesL : List OpExpr → List LocalSpace
  | [] => []
  | x :: xs => leafSpaces x ++ leafSpacesL xs

end

/-- Modelled from the spec: `expr.space`, the declared Hilbert space of an
operator expression — the tensor closure (canonically ordered,
duplicate-free union) of the leaves' local spaces; the `Identity`/`Zero`
placeholders are space-agnostic (trivial space). -/
def spaceOf (e : OpExpr) : HSpace :=
  match e with
  | .identityOp => []
  | .zeroOp => []
  | .localOp s _ => [s]
  | e => canonS (leafSpaces e)

mutual

/-- The local spaces of the leaves of a ket expression. -/
def leafSpacesK : KetExpr → List LocalSpace
  | .basisKet s _ => [s]
  | .coherent s _ => [s]
  | .ketPlus ks => leafSpacesKL ks
  | .tensorKet ks => leafSpacesKL ks
  | .scalarTimesKet _ k => leafSpacesK k
  | .operatorTimesKet a k => leafSpaces a ++ leafSpacesK k

def leafSpacesKL : List KetExpr → List LocalSpace
  | [] => []
  | k :: ks => leafSpacesK k ++ leafSpacesKL ks

end

/-- Modelled from the spec: `expr.space` for ket expressions. -/
def spaceOfK (k : KetExpr) : HSpace :=
  match k with
  | .basisKet s _ => [s]
  | .coherent s _ => [s]
  | k => canonS (leafSpacesK k)

/-- `expr.space` for either runtime type. -/
def spaceOfQ : QExpr → HSpace
  | .op e => spaceOf e
  | .ket k => spaceOfK k

mutual

/-- Modelled from the spec: `op.all_symbols()` — every sympy symbol
occurring in the scalar data of an operator expression. -/
def allSymbols : OpExpr → List String
  | .identityOp => []
  | .zeroOp => []
  | .localOp _ k =>
    match k with
    | .phase phi => phi.freeSymbols
    | .displace alpha => alpha.freeSymbols
    | .squeeze eta => eta.freeSymbols
    | _ => []
  | .plus xs => allSymbolsL xs
  | .times xs => allSymbolsL xs
  | .scalarTimes c e => c.freeSymbols ++ allSymbols e
  | .adjoint e => allSymbols e
  | .pseudoInverse e => allSymbols e
  | .nullSpaceProjector e => allSymbols e
  | .operatorTrace e => allSymbols e

def allSymbolsL : List OpExpr → List String
  | [] => []
  | x :: xs => allSymbols x ++ allSymbolsL xs

end

mutual

/-- Modelled from the spec: the list of summands of `expr.expand()` —
products and scalar multiples are distributed over sums. -/
def expandList : OpExpr → List OpExpr
  | .identityOp => [.identityOp]
  | .zeroOp => [.zeroOp]
  | .localOp s k => [.localOp s k]
  | .plus xs => expandEach xs
  | .times xs => (expandProd xs).map OpExpr.times
  | .scalarTimes c e => (expandList e).map (OpExpr.scalarTimes c)
  | .adjoint e => [.adjoint e]
  | .pseudoInverse e => [.pseudoInverse e]
  | .nullSpaceProjector e => [.nullSpaceProjector e]
  | .operatorTrace e => [.operatorTrace e]

def expandEach : List OpExpr → List OpExpr
  | [] => []
  | x :: xs => expandList x ++ expandEach xs

def expandProd : List OpExpr → List (List OpExpr)
  | [] => [[]]
  | x :: xs => (expandList x).flatMap (fun t => (expandProd xs).map (fun ts => t :: ts))

end

/-- Modelled from the spec: `expr.expand()`, distributing products over
sums; a single resulting term is returned bare, several are wrapped in an
`OperatorPlus`. -/
def OpExpr.expand (e : OpExpr) : OpExpr :=
  match expandList e with
  | [t] => t
  | ts => .plus ts

mutual

/-- Modelled from the spec: summand list of `expand()` on kets. -/
def expandListK : KetExpr → List KetExpr
  | .basisKet s i => [.basisKet s i]
  | .coherent s a => [.coherent s a]
  | .ketPlus ks => expandEachK ks
  | .tensorKet ks => (expandProdK ks).map KetExpr.tensorKet
  | .scalarTimesKet c k => (expandListK k).map (KetExpr.scalarTimesKet c)
  | .operatorTimesKet a k =>
    (expandList a).flatMap (fun t => (expandListK k).map (KetExpr.operatorTimesKet t))

def expandEachK : List KetExpr → List KetExpr
  | [] => []
  | k :: ks => expandListK k ++ expandEachK ks

def expandProdK : List KetExpr → List (List KetExpr)
  | [] => [[]]
  | k :: ks => (expandListK k).flatMap (fun t => (expandProdK ks).map (fun ts => t :: ts))

end

/-- Modelled from the spec: `expand()` on ket expressions. -/
def KetExpr.expand (k : KetExpr) : KetExpr :=
  match expandListK k with
  | [t] => t
  | ts => .ketPlus ts

/-! ## The conversion engine -/

/-- The external numeric primitives used by the converter
(`qutip.create`, `qutip.destroy`, `numpy.cos`/`numpy.sin`,
`qutip.displace`, `qutip.coherent`, `scipy.linalg.pinv`,
`scipy.linalg.svd`).  They are library calls outside this repository, so
they are abstracted: every theorem below holds for an arbitrary bundle.
`displace` receives the raw sympy parameter, exactly as the source passes
it.  `svd` returns `(U, s, Vh)` with `s` the singular-value array. -/
structure QutipPrims where
  create : ℕ → Mat
  destroy : ℕ → Mat
  cos : CQ → CQ
  sin : CQ → CQ
  displace : ℕ → SymExpr → Mat
  coherent : ℕ → CQ → Mat
  pinv : Mat → Mat
  svd : Mat → Mat × List ℚ × Mat

/-- A value stored in the caller-supplied `mapping`: either a `qutip.Qobj`
directly or a callable producing one (`assert callable(ret)`). -/
inductive MapVal where
  | qobj : Qobj → MapVal
  | fn : (QExpr → Qobj) → MapVal

/-- The caller-supplied `mapping`: structural-equality lookup from
sub-expressions, modelled as a partial function. -/
def Mapping := QExpr → Option MapVal

/-- The absent mapping (`mapping=None`). -/
def mapNone : Mapping := fun _ => none

/-- Module constant `DENSE_DIMENSION_LIMIT`. -/
def DENSE_DIMENSION_LIMIT : ℕ := 1000

/-- `qutip.Qobj.dag()`: conjugate transpose, swapping the dims. -/
def dagQ (a : Qobj) : Qobj := ⟨a.colDims, a.rowDims, conjTrans a.data, none⟩

/-- The `n×n` diagonal phase matrix built by the `Phase` branch:
`d = cos(phi*arange(n)) + 1j*sin(phi*arange(n))`, `Qobj(diag(d))`. -/
def phaseDiag (P : QutipPrims) (n : ℕ) (phi : CQ) : Mat :=
  (List.range n).map (fun r =>
    (List.range n).map (fun c =>
      if r = c then
        CQ.add (P.cos (CQ.mul phi ⟨r, 0⟩)) (CQ.mul ⟨0, 1⟩ (P.sin (CQ.mul phi ⟨r, 0⟩)))
      else CQ.zero))

/-- One step of the shallow embedding of `convert_to_qutip` together with
the helpers it dispatches to (`_convert_local_operator_to_qutip`,
`_convert_operator_operation_to_qutip`, `_convert_ket_to_qutip`), which in
the source are a cascade of `isinstance` branches over the same recursion.
`rec` is the recursive call; `convert_to_qutip` below ties the knot with
explicit fuel. -/
def convertStep (P : QutipPrims) (rec : QExpr → HSpace → Mapping → Except PyErr Qobj)
    (e : QExpr) (fs : HSpace) (mapping : Mapping) : Except PyErr Qobj :=
    -- `if not expr.space.is_tensor_factor_of(full_space): raise ValueError`
    if isTensorFactorOf (spaceOfQ e) fs then
      -- `if mapping is not None and expr in mapping: ...` (after the space check)
      match mapping e with
      | some (.qobj q) => .ok q
      | some (.fn f) => .ok (f e)
      | none =>
        match e with
        | .op oe =>
          match oe with
          | .identityOp =>
            -- `expr is IdentityOperator`
            if fs.length = 0 then .error .noLocalFactors
            else qutipTensor (fs.map (fun t => qeyeQ t.dim))
          | .zeroOp =>
            -- `expr is ZeroOperator`
            qutipTensor (fs.map (fun t => qzeroQ t.dim))
          | .localOp s kind =>
            -- `_convert_local_operator_to_qutip`
            let n := hsDimension fs
            if fs ≠ [s] then
              -- embed: identities on all other local factors, the locally
              -- converted operator at its factor index
              if fs.contains s then
                let idx := fs.findIdx (fun x => decide (x = s))
                do
                  let inner ← rec (.op (.localOp s kind)) [s] mapping
                  qutipTensor
                    ((fs.take idx).map (fun t => qeyeQ t.dim) ++ [inner] ++
                      (fs.drop (idx + 1)).map (fun t => qeyeQ t.dim))
              else .error (.valueError "is not in list")
            else
              match kind with
              | .create => .ok ⟨[n], [n], P.create n, none⟩
              | .jz => .ok ⟨[n], [n], P.create n, none⟩
              | .jplus => .ok ⟨[n], [n], P.create n, none⟩
              | .destroy => .ok ⟨[n], [n], P.destroy n, none⟩
              | .jminus => .ok ⟨[n], [n], P.destroy n, none⟩
              | .phase phi => do
                let c ← phi.evalConst
                .ok ⟨[n], [n], phaseDiag P n c, none⟩
              | .displace alpha => .ok ⟨[n], [n], P.displace n alpha, none⟩
              | .squeeze eta =>
                -- the source builds Squeeze from `qutip.displace` as well
                .ok ⟨[n], [n], P.displace n eta, none⟩
              | .localSigma k j =>
                -- `expr.space.basis.index(k)` / `.index(j)` with basis `range(dim)`
                if k < s.dim then
                  if j < s.dim then .ok (qmul (qbasisQ n k) (dagQ (qbasisQ n j)))
                  else .error (.valueError "is not in list")
                else .error (.valueError "is not in list")
          | .plus ops => do
            -- `sum((convert_to_qutip(op, full_space, mapping) ...), 0)`; the
            -- Python integer 0 start adds exactly nothing to the first
            -- summand; the empty sum returns the integer 0 itself
            -- (unreachable: `OperatorPlus` has at least two operands).
            let qs ← mapME (fun o => rec (.op o) fs mapping) ops
            match qs with
            | [] => .ok ⟨[], [], [], none⟩
            | q :: rest => .ok (rest.foldl qadd q)
          | .times ops =>
            -- `if any(len(op.space) > 1 for op in expr.operands): expand`
            if ops.any (fun o => decide ((spaceOf o).length > 1)) then
              let se := OpExpr.expand (.times ops)
              if obeq se (.times ops) then .error .cannotRepresent
              else rec (.op se) fs mapping
            else do
              -- group factors by associated local space
              let groups ← mapME (fun ls =>
                  mapME (fun o => rec (.op o) (spaceOf o) mapping)
                    (ops.filter (fun o => decide (spaceOf o = [ls])))) fs
              let ck := (groups.map List.length).sum
              let by_space := (List.zip groups fs).map
                  (fun p => if p.1.length = 0 then qeyeQ p.2.dim else prodQ p.1)
              -- `assert ck == len(expr.operands)`
              if ck = ops.length then qutipTensor by_space
              else .error .assertionError
          | .adjoint _ =>
            -- `convert_to_qutip(qutip.dag(expr.operands[0]), full_space, ...)`:
            -- `qutip.dag` is applied to the *symbolic* operand before any
            -- conversion; `qutip.dag` requires a `qutip.Qobj` argument and
            -- raises `TypeError("Input is not a quantum object")`.
            .error .typeError
          | .pseudoInverse inner => do
            let mo ← rec (.op inner) fs mapping
            if hsDimension fs ≤ DENSE_DIMENSION_LIMIT then
              -- dense pseudo-inverse; dims, hermiticity flag copied from `mo`
              .ok ⟨mo.rowDims, mo.colDims, P.pinv mo.data, mo.isherm⟩
            else .error (.notImplemented "Only implemented for smaller state spaces")
          | .nullSpaceProjector inner => do
            let mo ← rec (.op inner) fs mapping
            if hsDimension fs ≤ DENSE_DIMENSION_LIMIT then
              match P.svd mo.data with
              | (_, s, vh) =>
                match s with
                | [] => .error .indexError
                | s0 :: _ =>
                  -- `tol = 1e-8 * s[0]; Vhzero = Vh[s < tol, :]`
                  let tol := (1 / 100000000 : ℚ) * s0
                  let vhzero := ((List.zip s vh).filter
                      (fun p => decide (p.1 < tol))).map Prod.snd
                  -- `PKmo.isherm = True`
                  .ok ⟨mo.rowDims, mo.colDims, matMul (conjTrans vhzero) vhzero, some true⟩
            else .error (.notImplemented "Only implemented for smaller state spaces")
          | .scalarTimes c term => do
            -- `complex(expr.coeff) * convert_to_qutip(expr.term, ...)`
            let cv ← c.evalConst
            let q ← rec (.op term) fs mapping
            .ok (qscal cv q)
          | .operatorTrace _ =>
            .error (.notImplemented "Cannot convert OperatorTrace to qutip")
        | .ket k =>
          -- `_convert_ket_to_qutip`
          let n := hsDimension fs
          if fs ≠ spaceOfK k then
            -- The embedding branch evaluates
            -- `[qeye, ...] + convert_to_qutip(expr, expr.space, mapping) + [qeye, ...]`:
            -- unlike the operator version, the converted Qobj is *not*
            -- wrapped in a list, so after the recursive conversion returns,
            -- concatenating it onto a Python list raises a TypeError-class
            -- exception.
            do
              let _ ← rec (.ket k) (spaceOfK k) mapping
              .error .typeError
          else
            match k with
            | .basisKet s i =>
              -- `qutip.basis(n, expr.space.basis.index(expr.operands[1]))`
              if i < s.dim then .ok (qbasisQ n i)
              else .error (.valueError "is not in list")
            | .coherent _ a => do
              -- `qutip.coherent(n, complex(expr.operands[1]))`
              let cv ← a.evalConst
              .ok ⟨[n], [1], P.coherent n cv, none⟩
            | .ketPlus ks =>
              -- `sum((convert_to_qutip(op, n, mapping) ...), 0)`: the
              -- recursive calls pass the integer `n` where a Hilbert space
              -- is expected; the tensor-factor check against an integer
              -- raises a TypeError.  The empty sum returns the integer 0.
              match ks with
              | [] => .ok ⟨[], [], [], none⟩
              | _ :: _ => .error .typeError
            | .tensorKet ks =>
              if ks.any (fun o => decide ((spaceOfK o).length > 1)) then
                let se := KetExpr.expand (.tensorKet ks)
                if kbeq se (.tensorKet ks) then .error .cannotRepresent
                else
                  -- `convert_to_qutip(se, n, mapping)`: integer ambient space
                  .error .typeError
              else
                match ks with
                | [] => .error (.valueError "Requires at least one input argument")
                | _ :: _ =>
                  -- `convert_to_qutip(o, n, mapping)`: integer ambient space
                  .error .typeError
            | .scalarTimesKet c _ => do
              -- `complex(expr.coeff) * convert_to_qutip(expr.term, n, ...)`
              let _ ← c.evalConst
              .error .typeError
            | .operatorTimesKet _ _ =>
              -- `convert_to_qutip(expr.coeff, n, ...)`: integer ambient space
              .error .typeError
    else .error .incompatibleSpace

/-- Shallow embedding of `convert_to_qutip`.  The first argument after the
primitive bundle is fuel: the source recursion has no structural measure
(the `OperatorTimes` branch recurses on `expr.expand()`), so every
recursive call consumes one unit.  The `full_space=None` default
(`full_space = expr.space`) is applied by the callers of this model. -/
def convert_to_qutip (P : QutipPrims) : ℕ → QExpr → HSpace → Mapping → Except PyErr Qobj
  | 0, _, _, _ => .error .outOfFuel
  | fuel + 1, e, fs, mapping => convertStep P (convert_to_qutip P fuel) e fs mapping

/-! ## Time-dependence decomposition -/

/-- A materialized time coefficient: either a callable of
`(time, auxiliary-substitution-args)` or a source string. -/
inductive TimeCoeff where
  | pyfunc : (CQ → List (String × CQ) → Option CQ) → TimeCoeff
  | pystr : String → TimeCoeff

/-- The heterogeneous value returned by `_time_dependent_to_qutip`: a bare
`Qobj` for a static operator, a `[converted_operator, coefficient]` pair,
or a nested list of such entries. -/
inductive TDRes where
  | q : Qobj → TDRes
  | pair : Qobj → TimeCoeff → TDRes
  | list : List TDRes → TDRes

/-- `lambdify(time_symbol, coeff)`: a numeric function of the time value;
evaluation returns `none` (Python `NameError`) if the body mentions any
other symbol. -/
def lambdifyT (ts : String) (f : SymExpr) : CQ → Option CQ :=
  fun v => f.evalSym (fun s => if s = ts then some v else none)

/-- Python set equality of two symbol collections
(`{time_symbol,} == op.coeff.free_symbols`). -/
def setEqS (a b : List String) : Bool :=
  a.all (fun x => decide (x ∈ b)) && b.all (fun x => decide (x ∈ a))

/-- One step of the shallow embedding of `_time_dependent_to_qutip`;
`conv` is the operator converter and `tdrec` the recursive call.  The
`full_space=None` default (`full_space = op.space`) is applied by callers.
`convert_to_qutip` is invoked without a mapping, as in the source. -/
def tdStep (P : QutipPrims) (conv : QExpr → HSpace → Mapping → Except PyErr Qobj)
    (tdrec : OpExpr → HSpace → String → String → Except PyErr TDRes)
    (op : OpExpr) (fs : HSpace) (ts : String) (convert_as : String) :
    Except PyErr TDRes :=
    if (allSymbols op).contains ts then
      -- `op = op.expand()`, then dispatch on the expanded shape
      match op.expand with
      | .plus ops => do
        -- first loop: accumulate terms with no time dependence into a
        -- single leading static entry
        let statics ← mapME (fun o => conv (.op o) fs mapNone)
          (ops.filter (fun o => !(allSymbols o).contains ts))
        let result0 : List TDRes :=
          match statics with
          | [] => []
          | q :: rest => [TDRes.q (rest.foldl qadd q)]
        -- second loop: append the decomposition of each time-dependent term
        let tdeps ← mapME (fun o => tdrec o fs ts convert_as)
          (ops.filter (fun o => (allSymbols o).contains ts))
        .ok (.list (result0 ++ tdeps))
      | .scalarTimes c term =>
        if convert_as = "pyfunc" then
          let func_no_args := lambdifyT ts c
          -- fast path: if the coefficient's only free symbol is the time
          -- symbol, the args are ignored entirely
          let coeff : TimeCoeff := .pyfunc
            (if setEqS c.freeSymbols [ts] then fun t _ => func_no_args t
             else
               -- `func_no_args(t).subs(args)`: `.subs` on a Python number
               -- (and the lambdified body's unbound symbols) fails
               fun t _ => (func_no_args t).bind (fun _ => none))
          do
            let q ← conv (.op term) fs mapNone
            .ok (.pair q coeff)
        else if convert_as = "str" then
          -- `re.sub("I", "(1.0j)", str(op.coeff))`
          let coeff : TimeCoeff := .pystr ((c.symStr).replace "I" "(1.0j)")
          do
            let q ← conv (.op term) fs mapNone
            .ok (.pair q coeff)
        else
          .error (.valueError
            ("Invalid value '" ++ convert_as ++
              "' for `convert_as`, must be one of 'str', 'pyfunc'"))
      | _ =>
        .error (.valueError
          "op cannot be expressed in qutip. It must have the structure op = sum_i f_i(t) * op_i")
    else do
      let q ← conv (.op op) fs mapNone
      .ok (.q q)

/-- Shallow embedding of `_time_dependent_to_qutip`, with explicit fuel. -/
def time_dependent_to_qutip (P : QutipPrims) :
    ℕ → OpExpr → HSpace → String → String → Except PyErr TDRes
  | 0, _, _, _, _ => .error .outOfFuel
  | fuel + 1, op, fs, ts, convert_as =>
    tdStep P (convert_to_qutip P fuel) (time_dependent_to_qutip P fuel) op fs ts convert_as

/-- A concrete primitive bundle used to instantiate witnesses; the
theorems themselves hold for every bundle. -/
def trivPrims : QutipPrims where
  create n := idMat n
  destroy n := idMat n
  cos _ := CQ.one
  sin _ := CQ.zero
  displace n _ := idMat n
  coherent n _ := (basisCol n 0)
  pinv m := m
  svd m := (m, [1, 0], idMat 2)

/-- The number of factors consumed by the per-local-space grouping of the
`OperatorTimes` branch (the value the source accumulates in `ck`): every
operand is counted once for each ambient local factor its declared space
equals. -/
def groupedFactorCount (ops : List OpExpr) (fs : HSpace) : ℕ :=
  (fs.map (fun ls => (ops.filter (fun o => decide (spaceOf o = [ls]))).length)).sum

/-! ### Concrete fixtures used by the witness theorems -/

/-- A two-dimensional local space. -/
def wS1 : LocalSpace := ⟨0, 2⟩

/-- A three-dimensional local space with a distinct name. -/
def wS2 : LocalSpace := ⟨1, 3⟩

/-- A local space whose dimension exceeds `DENSE_DIMENSION_LIMIT`. -/
def wSBig : LocalSpace := ⟨2, 1001⟩

/-- A mapping that intercepts every `Create` leaf. -/
def wMapCreate : Mapping := fun e =>
  match e with
  | .op (.localOp _ .create) => some (.qobj ⟨[2], [2], idMat 2, none⟩)
  | _ => none

/-- A mapping that intercepts every `Destroy` leaf (used to feed the
pseudo-inverse witnesses a concrete operand). -/
def wMapDestroy : Mapping := fun e =>
  match e with
  | .op (.localOp _ .destroy) => some (.qobj ⟨[2], [2], [[CQ.zero, CQ.one], [CQ.zero, CQ.zero]], none⟩)
  | _ => none

/-! ## Lemmas about spaces and expansion -/

theorem mem_canonS {x : LocalSpace} {l : List LocalSpace} : x ∈ canonS l ↔ x ∈ l := by
  unfold canonS
  rw [List.mem_insertionSort]
  exact List.mem_dedup

theorem mem_spaceOf {x : LocalSpace} {e : OpExpr} : x ∈ spaceOf e ↔ x ∈ leafSpaces e := by
  cases e <;> simp [spaceOf, leafSpaces, mem_canonS]

theorem mem_spaceOfK {x : LocalSpace} {k : KetExpr} : x ∈ spaceOfK k ↔ x ∈ leafSpacesK k := by
  cases k <;> simp [spaceOfK, leafSpacesK, mem_canonS]

theorem isTensorFactorOf_iff {s fs : HSpace} :
    isTensorFactorOf s fs = true ↔ ∀ x ∈ s, x ∈ fs := by
  simp [isTensorFactorOf]

theorem isTensorFactorOf_self (s : HSpace) : isTensorFactorOf s s = true :=
  isTensorFactorOf_iff.2 (fun _ h => h)

theorem mem_leafSpacesL {x : LocalSpace} :
    ∀ (xs : List OpExpr), x ∈ leafSpacesL xs ↔ ∃ o ∈ xs, x ∈ leafSpaces o
  | [] => by simp [leafSpacesL]
  | o :: xs => by
    simp [leafSpacesL, List.mem_append, mem_leafSpacesL xs]

theorem mem_leafSpacesKL {x : LocalSpace} :
    ∀ (ks : List KetExpr), x ∈ leafSpacesKL ks ↔ ∃ k ∈ ks, x ∈ leafSpacesK k
  | [] => by simp [leafSpacesKL]
  | k :: ks => by
    simp [leafSpacesKL, List.mem_append, mem_leafSpacesKL ks]

mutual

theorem expandList_leaves {x : LocalSpace} :
    ∀ (e : OpExpr), ∀ t ∈ expandList e, x ∈ leafSpaces t → x ∈ leafSpaces e
  | .identityOp, t, ht, hx => by
    simp [expandList] at ht; subst ht; exact hx
  | .zeroOp, t, ht, hx => by
    simp [expandList] at ht; subst ht; exact hx
  | .localOp s k, t, ht, hx => by
    simp [expandList] at ht; subst ht; exact hx
  | .plus xs, t, ht, hx => by
    simp only [expandList] at ht
    exact expandEach_leaves xs t ht hx
  | .times xs, t, ht, hx => by
    simp only [expandList, List.mem_map] at ht
    obtain ⟨ts, hts, rfl⟩ := ht
    exact expandProd_leaves xs ts hts hx
  | .scalarTimes c e, t, ht, hx => by
    simp only [expandList, List.mem_map] at ht
    obtain ⟨t', ht', rfl⟩ := ht
    exact expandList_leaves e t' ht' hx
  | .adjoint e, t, ht, hx => by
    simp [expandList] at ht; subst ht; exact hx
  | .pseudoInverse e, t, ht, hx => by
    simp [expandList] at ht; subst ht; exact hx
  | .nullSpaceProjector e, t, ht, hx => by
    simp [expandList] at ht; subst ht; exact hx
  | .operatorTrace e, t, ht, hx => by
    simp [expandList] at ht; subst ht; exact hx

theorem expandEach_leaves {x : LocalSpace} :
    ∀ (xs : List OpExpr), ∀ t ∈ expandEach xs, x ∈ leafSpaces t → x ∈ leafSpacesL xs
  | [], t, ht, _ => by simp [expandEach] at ht
  | e :: xs, t, ht, hx => by
    simp only [expandEach, List.mem_append] at ht
    simp only [leafSpacesL, List.mem_append]
    rcases ht with ht | ht
    · exact Or.inl (expandList_leaves e t ht hx)
    · exact Or.inr (expandEach_leaves xs t ht hx)

theorem expandProd_leaves {x : LocalSpace} :
    ∀ (xs : List OpExpr), ∀ ts ∈ expandProd xs, x ∈ leafSpacesL ts → x ∈ leafSpacesL xs
  | [], ts, hts, hx => by
    simp [expandProd] at hts; subst hts; simp [leafSpacesL] at hx
  | e :: xs, ts, hts, hx => by
    simp only [expandProd, List.mem_flatMap, List.mem_map] at hts
    obtain ⟨t, ht, ts', hts', rfl⟩ := hts
    simp only [leafSpacesL, List.mem_append] at hx ⊢
    rcases hx with hx | hx
    · exact Or.inl (expandList_leaves e t ht hx)
    · exact Or.inr (expandProd_leaves xs ts' hts' hx)

end

theorem leaves_expand {x : LocalSpace} {e : OpExpr}
    (hx : x ∈ leafSpaces e.expand) : x ∈ leafSpaces e := by
  unfold OpExpr.expand at hx
  cases h : expandList e with
  | nil => rw [h] at hx; simp [leafSpaces, leafSpacesL] at hx
  | cons t ts =>
    rw [h] at hx
    cases ts with
    | nil =>
      exact expandList_leaves e t (by rw [h]; exact List.mem_cons_self _ _) hx
    | cons t' ts' =>
      simp only [leafSpaces] at hx
      obtain ⟨o, ho, hxo⟩ := (mem_leafSpacesL _).1 hx
      exact expandList_leaves e o (by rw [h]; exact ho) hxo

/-! ## Lemmas about `mapME` and `Except` -/

@[simp] theorem except_error_bind {α β : Type} (e : PyErr) (f : α → Except PyErr β) :
    (Except.error e >>= f) = (Except.error e : Except PyErr β) := rfl

@[simp] theorem except_ok_bind {α β : Type} (a : α) (f : α → Except PyErr β) :
    (Except.ok a >>= f) = f a := rfl

theorem mapME_ne_error {α β : Type} {f : α → Except PyErr β} {bad : PyErr} :
    ∀ (l : List α), (∀ a ∈ l, f a ≠ .error bad) → mapME f l ≠ .error bad
  | [], _ => by simp [mapME]
  | a :: l, h => by
    simp only [mapME]
    cases hfa : f a with
    | error e =>
      simp only [hfa, except_error_bind]
      intro he
      have heb : e = bad := by injection he
      exact (h a (by simp)) (by rw [hfa, heb])
    | ok b =>
      simp only [hfa, except_ok_bind]
      cases hrest : mapME f l with
      | error e =>
        have hne := mapME_ne_error l (fun x hx => h x (by simp [hx]))
        rw [hrest] at hne
        simp only [hrest, except_error_bind]
        exact hne
      | ok bs => simp [hrest]

theorem mapME_error_source {α β : Type} {f : α → Except PyErr β} {err : PyErr} :
    ∀ (l : List α), mapME f l = .error err → ∃ a ∈ l, f a = .error err
  | [], h => by simp [mapME] at h
  | a :: l, h => by
    simp only [mapME] at h
    cases hfa : f a with
    | error e =>
      rw [hfa] at h
      simp only [except_error_bind, Except.error.injEq] at h
      exact ⟨a, by simp, by rw [hfa, h]⟩
    | ok b =>
      rw [hfa] at h
      simp only [except_ok_bind] at h
      cases hrest : mapME f l with
      | error e =>
        rw [hrest] at h
        simp only [except_error_bind, Except.error.injEq] at h
        obtain ⟨x, hx, hfx⟩ := mapME_error_source l (by rw [hrest, h])
        exact ⟨x, by simp [hx], hfx⟩
      | ok bs =>
        rw [hrest] at h
        simp at h

theorem mapME_map {α β : Type} {f : α → Except PyErr β} {g : α → β} :
    ∀ (l : List α), (∀ a ∈ l, f a = .ok (g a)) → mapME f l = .ok (l.map g)
  | [], _ => by simp [mapME]
  | a :: l, h => by
    simp only [mapME]
    rw [h a (by simp), mapME_map l (fun x hx => h x (by simp [hx]))]
    simp

theorem mapME_forall₂ {α β : Type} {f : α → Except PyErr β} :
    ∀ (l : List α) (r : List β), mapME f l = .ok r →
      List.Forall₂ (fun a b => f a = .ok b) l r
  | [], r, h => by
    simp only [mapME, Except.ok.injEq] at h
    subst h
    exact List.Forall₂.nil
  | a :: l, r, h => by
    simp only [mapME] at h
    cases hfa : f a with
    | error e => rw [hfa] at h; simp at h
    | ok b =>
      rw [hfa] at h
      simp only [except_ok_bind] at h
      cases hrest : mapME f l with
      | error e => rw [hrest] at h; simp at h
      | ok bs =>
        rw [hrest] at h
        simp only [except_error_bind, except_ok_bind, Except.ok.injEq] at h
        subst h
        exact List.Forall₂.cons hfa (mapME_forall₂ l bs hrest)

/-! ## Counting lemmas -/

theorem sum_map_add {α : Type} (f g : α → ℕ) :
    ∀ (l : List α), (l.map (fun x => f x + g x)).sum = (l.map f).sum + (l.map g).sum
  | [] => by simp
  | a :: l => by
    simp only [List.map_cons, List.sum_cons, sum_map_add f g l]
    omega

theorem sum_map_ite_one {α : Type} [DecidableEq α] {a : α} :
    ∀ (l : List α), l.Nodup → a ∈ l →
      (l.map (fun x => if x = a then (1 : ℕ) else 0)).sum = 1
  | [], _, hmem => by simp at hmem
  | x :: l, hnd, hmem => by
    simp only [List.map_cons, List.sum_cons]
    by_cases hxa : x = a
    · rw [if_pos hxa]
      have hz : (l.map fun y => if y = a then (1 : ℕ) else 0).sum = 0 := by
        apply List.sum_eq_zero
        intro n hn
        simp only [List.mem_map] at hn
        obtain ⟨y, hy, hyn⟩ := hn
        have hne : y ≠ a := by
          intro h
          exact (List.nodup_cons.1 hnd).1 (by rw [hxa, ← h]; exact hy)
        rw [if_neg hne] at hyn
        omega
      omega
    · rw [if_neg hxa]
      have hmem2 : a ∈ l := by
        rcases List.mem_cons.1 hmem with h | h
        · exact absurd h.symm hxa
        · exact h
      have hrec := sum_map_ite_one l (List.nodup_cons.1 hnd).2 hmem2
      omega

/-! ## The space-compatibility error is confined to the entry check -/

theorem bind_ne {α β : Type} {bad : PyErr} {x : Except PyErr α} {k : α → Except PyErr β}
    (hx : x ≠ .error bad) (hk : ∀ a, k a ≠ .error bad) : (x >>= k) ≠ .error bad := by
  cases x with
  | error e => simpa using hx
  | ok a => simpa using hk a

theorem qutipTensor_ne_bad {bad : PyErr} (hbad : ∀ m, bad ≠ .valueError m) :
    ∀ (l : List Qobj), qutipTensor l ≠ .error bad
  | [] => by simpa [qutipTensor] using (hbad _).symm
  | q :: qs => by simp [qutipTensor]

theorem evalConst_cases :
    ∀ (c : SymExpr), (∃ v, c.evalConst = .ok v) ∨ c.evalConst = .error .typeError
  | .const v => Or.inl ⟨v, rfl⟩
  | .sym _ => Or.inr rfl
  | .add a b => by
    rcases evalConst_cases a with ⟨va, ha⟩ | ha <;>
      rcases evalConst_cases b with ⟨vb, hb⟩ | hb <;>
        simp [SymExpr.evalConst, ha, hb]
  | .mul a b => by
    rcases evalConst_cases a with ⟨va, ha⟩ | ha <;>
      rcases evalConst_cases b with ⟨vb, hb⟩ | hb <;>
        simp [SymExpr.evalConst, ha, hb]

theorem evalConst_ne_bad {bad : PyErr} (hbad : bad ≠ .typeError) (c : SymExpr) :
    c.evalConst ≠ .error bad := by
  rcases evalConst_cases c with ⟨v, hv⟩ | hv <;> rw [hv] <;> simp
  exact fun h => hbad h.symm

theorem isTensorFactorOf_of_subset {s t fs : HSpace}
    (h1 : ∀ x ∈ s, x ∈ t) (h2 : isTensorFactorOf t fs = true) :
    isTensorFactorOf s fs = true :=
  isTensorFactorOf_iff.2 (fun x hx => isTensorFactorOf_iff.1 h2 x (h1 x hx))

theorem spaceOf_operand_subset {o : OpExpr} {ops : List OpExpr} (ho : o ∈ ops) :
    ∀ x ∈ spaceOf o, x ∈ leafSpacesL ops := fun x hx =>
  (mem_leafSpacesL ops).2 ⟨o, ho, mem_spaceOf.1 hx⟩

/-- Once the entry space check of `convert_to_qutip` has passed, no part of
the conversion — including every recursive call — raises the
space-compatibility error `ValueError("expr must be in full_space")`. -/
theorem convert_no_incompat (P : QutipPrims) :
    ∀ (fuel : ℕ) (e : QExpr) (fs : HSpace) (mapping : Mapping),
      isTensorFactorOf (spaceOfQ e) fs = true →
      convert_to_qutip P fuel e fs mapping ≠ .error .incompatibleSpace
  | 0, e, fs, mapping, _ => by simp [convert_to_qutip]
  | fuel + 1, e, fs, mapping, h => by
    rw [convert_to_qutip, convertStep.eq_def, if_pos h]
    cases hm : mapping e with
    | some v => cases v <;> simp
    | none =>
      cases e with
      | op oe =>
        cases oe with
        | identityOp =>
          dsimp only
          by_cases hl : fs.length = 0
          · rw [if_pos hl]; simp
          · rw [if_neg hl]; exact qutipTensor_ne_bad (by simp) _
        | zeroOp => dsimp only; exact qutipTensor_ne_bad (by simp) _
        | localOp s kind =>
          dsimp only
          by_cases hfs : fs = [s]
          · rw [if_neg (not_not_intro hfs)]
            cases kind with
            | phase phi =>
              dsimp only
              exact bind_ne (evalConst_ne_bad (by simp) phi) (fun a => by simp)
            | localSigma k j =>
              dsimp only
              by_cases hk : k < s.dim
              · rw [if_pos hk]
                by_cases hj : j < s.dim
                · rw [if_pos hj]; simp
                · rw [if_neg hj]; simp
              · rw [if_neg hk]; simp
            | _ => simp
          · rw [if_pos hfs]
            by_cases hc : fs.contains s
            · rw [if_pos hc]
              refine bind_ne (convert_no_incompat P fuel _ _ _ ?_)
                (fun a => qutipTensor_ne_bad (by simp) _)
              exact isTensorFactorOf_self _
            · rw [if_neg hc]; simp
        | plus ops =>
          dsimp only
          refine bind_ne (mapME_ne_error _ (fun o ho => ?_)) (fun qs => ?_)
          · refine convert_no_incompat P fuel _ _ _ ?_
            refine isTensorFactorOf_of_subset ?_ h
            intro x hx
            have hmem := spaceOf_operand_subset ho x hx
            exact mem_spaceOf.2 (show x ∈ leafSpaces (OpExpr.plus ops) from hmem)
          · cases qs <;> simp
        | times ops =>
          dsimp only
          by_cases ha : ops.any (fun o => decide ((spaceOf o).length > 1))
          · rw [if_pos ha]
            by_cases hse : obeq (OpExpr.expand (.times ops)) (.times ops)
            · rw [if_pos hse]; simp
            · rw [if_neg hse]
              refine convert_no_incompat P fuel _ _ _ ?_
              refine isTensorFactorOf_of_subset ?_ h
              intro x hx
              exact mem_spaceOf.2 (leaves_expand (mem_spaceOf.1 hx))
          · rw [if_neg ha]
            refine bind_ne (mapME_ne_error _ (fun ls hls => ?_)) (fun groups => ?_)
            · refine mapME_ne_error _ (fun o ho => ?_)
              exact convert_no_incompat P fuel _ _ _ (isTensorFactorOf_self _)
            · by_cases hck : (groups.map List.length).sum = ops.length
              · rw [if_pos hck]; exact qutipTensor_ne_bad (by simp) _
              · rw [if_neg hck]; simp
        | adjoint e' => dsimp only; simp
        | pseudoInverse inner =>
          dsimp only
          refine bind_ne (convert_no_incompat P fuel _ _ _ ?_) (fun mo => ?_)
          · refine isTensorFactorOf_of_subset ?_ h
            intro x hx
            exact mem_spaceOf.2
              (show x ∈ leafSpaces (OpExpr.pseudoInverse inner) from
                (show x ∈ leafSpaces inner from
                  mem_spaceOf.1 (show x ∈ spaceOf inner from hx)))
          · by_cases hd : hsDimension fs ≤ DENSE_DIMENSION_LIMIT
            · rw [if_pos hd]; simp
            · rw [if_neg hd]; simp
        | nullSpaceProjector inner =>
          dsimp only
          refine bind_ne (convert_no_incompat P fuel _ _ _ ?_) (fun mo => ?_)
          · refine isTensorFactorOf_of_subset ?_ h
            intro x hx
            exact mem_spaceOf.2
              (show x ∈ leafSpaces (OpExpr.nullSpaceProjector inner) from
                (show x ∈ leafSpaces inner from
                  mem_spaceOf.1 (show x ∈ spaceOf inner from hx)))
          · by_cases hd : hsDimension fs ≤ DENSE_DIMENSION_LIMIT
            · rw [if_pos hd]
              cases (P.svd mo.data).2.1 with
              | nil => simp
              | cons s0 srest => simp
            · rw [if_neg hd]; simp
        | scalarTimes c term =>
          dsimp only
          refine bind_ne (evalConst_ne_bad (by simp) c) (fun cv => ?_)
          refine bind_ne (convert_no_incompat P fuel _ _ _ ?_) (fun q => by simp)
          refine isTensorFactorOf_of_subset ?_ h
          intro x hx
          exact mem_spaceOf.2
            (show x ∈ leafSpaces (OpExpr.scalarTimes c term) from
              (show x ∈ leafSpaces term from
                mem_spaceOf.1 (show x ∈ spaceOf term from hx)))
        | operatorTrace e' => dsimp only; simp
      | ket k =>
        dsimp only
        by_cases hfs : fs = spaceOfK k
        · rw [if_neg (not_not_intro hfs)]
          cases k with
          | basisKet s i =>
            dsimp only
            by_cases hi : i < s.dim
            · rw [if_pos hi]; simp
            · rw [if_neg hi]; simp
          | coherent s a =>
            dsimp only
            exact bind_ne (evalConst_ne_bad (by simp) a) (fun cv => by simp)
          | ketPlus ks => dsimp only; cases ks <;> simp
          | tensorKet ks =>
            dsimp only
            by_cases ha : ks.any (fun o => decide ((spaceOfK o).length > 1))
            · rw [if_pos ha]
              by_cases hse : kbeq (KetExpr.expand (.tensorKet ks)) (.tensorKet ks)
              · rw [if_pos hse]; simp
              · rw [if_neg hse]; simp
            · rw [if_neg ha]
              cases ks <;> simp
          | scalarTimesKet c k' =>
            dsimp only
            exact bind_ne (evalConst_ne_bad (by simp) c) (fun cv => by simp)
          | operatorTimesKet a k' => dsimp only; simp
        · rw [if_pos hfs]
          exact bind_ne (convert_no_incompat P fuel _ _ _ (isTensorFactorOf_self _))
            (fun q => by simp)

/-! ## Claim theorems -/

/-- C3: for every local Hilbert space `s` of dimension `n`, converting the
identity placeholder with ambient space `s` alone yields the `n×n` identity
matrix, and converting the zero placeholder with ambient space `s` alone
yields the `n×n` zero matrix. -/
theorem C3_identity_zero_placeholders (P : QutipPrims) (fuel : ℕ) (s : LocalSpace) :
    convert_to_qutip P (fuel + 1) (.op .identityOp) [s] mapNone
        = .ok ⟨[s.dim], [s.dim], idMat s.dim, none⟩ ∧
      convert_to_qutip P (fuel + 1) (.op .zeroOp) [s] mapNone
        = .ok ⟨[s.dim], [s.dim], zeroMat s.dim, none⟩ := by
  constructor <;>
    simp [convert_to_qutip, convertStep.eq_def, spaceOfQ, spaceOf, isTensorFactorOf,
      mapNone, qutipTensor, qeyeQ, qzeroQ]

/-- C5: the claim states that converting an Adjoint node converts the
operand and then takes its conjugate-transpose.  The code instead passes
the *symbolic* operand to `qutip.dag` before any conversion, which raises
`TypeError` (`qutip.dag` requires a `qutip.Qobj`): converting
`Adjoint(Destroy)` over the operand's own space errors out even though the
operand itself converts fine. -/
theorem C5_adjoint_bug :
    convert_to_qutip trivPrims 1 (.op (.adjoint (.localOp wS1 .destroy))) [wS1] mapNone
        = .error .typeError ∧
      convert_to_qutip trivPrims 1 (.op (.localOp wS1 .destroy)) [wS1] mapNone
        = .ok ⟨[2], [2], trivPrims.destroy 2, none⟩ :=
  ⟨rfl, rfl⟩

/-- C10: converting a Squeeze local operator with parameter `eta` in its
own space returns exactly the same matrix as converting a Displace local
operator with amplitude `eta` in that space — both leaf kinds are built
from the displacement construction — for every parameter, dimension and
primitive bundle. -/
theorem C10_squeeze_equals_displace (P : QutipPrims) (fuel : ℕ) (s : LocalSpace)
    (eta : SymExpr) :
    convert_to_qutip P (fuel + 1) (.op (.localOp s (.squeeze eta))) [s] mapNone
        = convert_to_qutip P (fuel + 1) (.op (.localOp s (.displace eta))) [s] mapNone ∧
      convert_to_qutip P (fuel + 1) (.op (.localOp s (.squeeze eta))) [s] mapNone
        = .ok ⟨[hsDimension [s]], [hsDimension [s]], P.displace (hsDimension [s]) eta, none⟩ := by
  constructor <;>
    simp [convert_to_qutip, convertStep.eq_def, spaceOfQ, spaceOf, isTensorFactorOf, mapNone]

/-- C4: with an explicitly supplied ambient space, conversion fails with
the space-compatibility error exactly when `expr.space` is not a tensor
factor of `full_space` — even when `expr` is a key of the supplied
`mapping`, since the space check precedes the mapping lookup — and that
error is never raised (at any recursion depth) when `expr.space` is a
tensor factor of `full_space`. -/
theorem C4_space_check_precedes_mapping (P : QutipPrims) (fuel : ℕ) (e : QExpr)
    (fs : HSpace) (mapping : Mapping) :
    (isTensorFactorOf (spaceOfQ e) fs = false →
      convert_to_qutip P (fuel + 1) e fs mapping = .error .incompatibleSpace) ∧
    (isTensorFactorOf (spaceOfQ e) fs = true →
      ∀ fuel2, convert_to_qutip P fuel2 e fs mapping ≠ .error .incompatibleSpace) := by
  constructor
  · intro h
    rw [convert_to_qutip, convertStep.eq_def, if_neg (by simp [h])]
  · intro h fuel2
    exact convert_no_incompat P fuel2 e fs mapping h

/-- C4 witness: a `Create` leaf that is a key of the mapping still fails
the space check against a foreign ambient space, and never produces that
error against a compatible one. -/
theorem C4_space_check_precedes_mapping_witness :
    convert_to_qutip trivPrims 1 (.op (.localOp wS1 .create)) [wS2] wMapCreate
        = .error .incompatibleSpace ∧
      convert_to_qutip trivPrims 5 (.op (.localOp wS1 .create)) [wS1] wMapCreate
        ≠ .error .incompatibleSpace :=
  ⟨(C4_space_check_precedes_mapping trivPrims 0 _ _ wMapCreate).1 (by rfl),
    (C4_space_check_precedes_mapping trivPrims 0 _ _ wMapCreate).2 (by rfl) 5⟩

/-- C6: the claim states that ket conversion mirrors the operator rules: a
basis ket in its own space converts to the one-hot vector at the
basis-label index (which holds), and a ket whose space is a proper tensor
factor of a larger ambient space is embedded by tensoring identities
(which fails: the embedding branch concatenates the converted `Qobj` onto
a Python list without the list wrapper used in the operator version,
raising a TypeError-class exception). -/
theorem C6_ket_embedding_bug :
    convert_to_qutip trivPrims 1 (.ket (.basisKet wS2 2)) [wS2] mapNone
        = .ok (qbasisQ (hsDimension [wS2]) 2) ∧
      convert_to_qutip trivPrims 2 (.ket (.basisKet wS1 0)) [wS1, wS2] mapNone
        = .error .typeError :=
  ⟨rfl, rfl⟩

/-- C7: pseudo-inverse and null-space-projector nodes convert exactly when
the ambient total dimension is at most `DENSE_DIMENSION_LIMIT` (default
1000); above it they fail with the dimension-limit error surfaced as a
`NotImplementedError`.  Within the limit the pseudo-inverse applies the
dense `pinv` and the null-space projector is assembled from the
right-singular vectors whose singular value is below `1e-8` times the
leading (largest) singular value, with the result explicitly tagged
Hermitian. -/
theorem C7_pinv_nullspace_threshold (P : QutipPrims) (fuel : ℕ) (inner : OpExpr)
    (fs : HSpace) (mapping : Mapping) (mo : Qobj) (s0 : ℚ) (srest : List ℚ) (u vh : Mat)
    (hfac1 : isTensorFactorOf (spaceOfQ (.op (.pseudoInverse inner))) fs = true)
    (hfac2 : isTensorFactorOf (spaceOfQ (.op (.nullSpaceProjector inner))) fs = true)
    (hm1 : mapping (.op (.pseudoInverse inner)) = none)
    (hm2 : mapping (.op (.nullSpaceProjector inner)) = none)
    (hconv : convert_to_qutip P fuel (.op inner) fs mapping = .ok mo)
    (hsvd : P.svd mo.data = (u, s0 :: srest, vh)) :
    convert_to_qutip P (fuel + 1) (.op (.pseudoInverse inner)) fs mapping
        = (if hsDimension fs ≤ DENSE_DIMENSION_LIMIT then
            .ok ⟨mo.rowDims, mo.colDims, P.pinv mo.data, mo.isherm⟩
          else .error (.notImplemented "Only implemented for smaller state spaces")) ∧
      convert_to_qutip P (fuel + 1) (.op (.nullSpaceProjector inner)) fs mapping
        = (if hsDimension fs ≤ DENSE_DIMENSION_LIMIT then
            .ok ⟨mo.rowDims, mo.colDims,
              matMul
                (conjTrans (((List.zip (s0 :: srest) vh).filter
                  (fun p => decide (p.1 < (1 / 100000000 : ℚ) * s0))).map Prod.snd))
                (((List.zip (s0 :: srest) vh).filter
                  (fun p => decide (p.1 < (1 / 100000000 : ℚ) * s0))).map Prod.snd),
              some true⟩
          else .error (.notImplemented "Only implemented for smaller state spaces")) := by
  constructor
  · rw [convert_to_qutip, convertStep.eq_def, if_pos hfac1, hm1]
    dsimp only
    rw [hconv]
    simp only [except_ok_bind]
  · rw [convert_to_qutip, convertStep.eq_def, if_pos hfac2, hm2]
    dsimp only
    rw [hconv]
    simp only [except_ok_bind]
    by_cases hd : hsDimension fs ≤ DENSE_DIMENSION_LIMIT
    · rw [if_pos hd]
      simp only [hsvd]
      rw [if_pos hd]
    · rw [if_neg hd, if_neg hd]

/-- C7 witness: the null-space projector of a concrete 2×2 operand within
the dimension limit is assembled from the sub-tolerance singular rows and
tagged Hermitian. -/
theorem C7_pinv_nullspace_threshold_witness :
    convert_to_qutip trivPrims 2 (.op (.nullSpaceProjector (.localOp wS1 .destroy)))
        [wS1] wMapDestroy
      = .ok ⟨[2], [2],
          matMul
            (conjTrans (((List.zip ((1 : ℚ) :: [0]) (idMat 2)).filter
              (fun p => decide (p.1 < (1 / 100000000 : ℚ) * 1))).map Prod.snd))
            (((List.zip ((1 : ℚ) :: [0]) (idMat 2)).filter
              (fun p => decide (p.1 < (1 / 100000000 : ℚ) * 1))).map Prod.snd),
          some true⟩ := by
  have h := C7_pinv_nullspace_threshold trivPrims 1 (.localOp wS1 .destroy) [wS1]
    wMapDestroy ⟨[2], [2], [[CQ.zero, CQ.one], [CQ.zero, CQ.zero]], none⟩ 1 [0]
    [[CQ.zero, CQ.one], [CQ.zero, CQ.zero]] (idMat 2) rfl rfl rfl rfl rfl rfl
  rw [h.2, if_pos (by decide)]

/-- C8: supplying a `convert_as` value other than `'pyfunc'` or `'str'` to
the time-dependent conversion of a coefficient-times-operator term fails
with the configuration error whose message names the allowed set
`{'pyfunc','str'}`. -/
theorem C8_convert_as_validation (P : QutipPrims) (fuel : ℕ) (f : SymExpr) (H1 : OpExpr)
    (fs : HSpace) (ts ca : String)
    (hts : ts ∈ f.freeSymbols)
    (hexp : (OpExpr.scalarTimes f H1).expand = .scalarTimes f H1)
    (hca1 : ca ≠ "pyfunc") (hca2 : ca ≠ "str") :
    time_dependent_to_qutip P (fuel + 1) (.scalarTimes f H1) fs ts ca
      = .error (.valueError ("Invalid value '" ++ ca ++
          "' for `convert_as`, must be one of 'str', 'pyfunc'")) := by
  rw [time_dependent_to_qutip, tdStep.eq_def]
  have hcontains : (allSymbols (.scalarTimes f H1)).contains ts = true := by
    exact List.elem_eq_true_of_mem (by
      simp only [allSymbols, List.mem_append]
      exact Or.inl hts)
  rw [if_pos hcontains, hexp]
  dsimp only
  rw [if_neg hca1, if_neg hca2]

theorem contains_eq_false_of_not_mem {a : String} {l : List String} (h : a ∉ l) :
    l.contains a = false := by
  cases hc : l.contains a
  · rfl
  · exact absurd (List.mem_of_elem_eq_true hc) h

/-- C2: for `H = H0 + f(t)·H1` with the declared time symbol occurring
only in the coefficient `f`, the decomposition returns exactly two list
entries — the converted static part `H0` first, then the
`[converted H1, coeff]` pair — and with `convert_as='pyfunc'` evaluating
`coeff(t0, {})` at any time value equals the symbolic evaluation of `f`
at `t0`. -/
theorem C2_time_decomposition (P : QutipPrims) (fuel : ℕ) (H0 H1 : OpExpr) (f : SymExpr)
    (ts : String) (fs : HSpace) (h0 h1 : Qobj)
    (hf : f.freeSymbols = [ts])
    (hH0 : ts ∉ allSymbols H0)
    (hH1 : ts ∉ allSymbols H1)
    (hexp : (OpExpr.plus [H0, .scalarTimes f H1]).expand = .plus [H0, .scalarTimes f H1])
    (hexp2 : (OpExpr.scalarTimes f H1).expand = .scalarTimes f H1)
    (hc0 : convert_to_qutip P (fuel + 1) (.op H0) fs mapNone = .ok h0)
    (hc1 : convert_to_qutip P fuel (.op H1) fs mapNone = .ok h1) :
    ∃ F, time_dependent_to_qutip P (fuel + 1 + 1) (.plus [H0, .scalarTimes f H1]) fs ts
          "pyfunc"
        = .ok (.list [.q h0, .pair h1 (.pyfunc F)]) ∧
      ∀ t0, F t0 [] = f.evalSym (fun x => if x = ts then some t0 else none) := by
  have htsf : ts ∈ f.freeSymbols := by rw [hf]; exact List.mem_singleton.2 rfl
  have hcST : (allSymbols (.scalarTimes f H1)).contains ts = true :=
    List.elem_eq_true_of_mem (by
      simp only [allSymbols, List.mem_append]
      exact Or.inl htsf)
  have hcH0 : (allSymbols H0).contains ts = false := contains_eq_false_of_not_mem hH0
  have hcPlus : (allSymbols (.plus [H0, .scalarTimes f H1])).contains ts = true :=
    List.elem_eq_true_of_mem (by
      simp only [allSymbols, allSymbolsL, List.mem_append, List.append_nil]
      exact Or.inr (Or.inl htsf))
  have hsetEq : setEqS f.freeSymbols [ts] = true := by
    rw [hf]
    simp [setEqS]
  have hinner : time_dependent_to_qutip P (fuel + 1) (.scalarTimes f H1) fs ts "pyfunc"
      = .ok (.pair h1 (.pyfunc (fun t _ => lambdifyT ts f t))) := by
    rw [time_dependent_to_qutip, tdStep.eq_def, if_pos hcST, hexp2]
    simp only [hsetEq, hc1, except_ok_bind, if_true, reduceIte]
  refine ⟨fun t _ => lambdifyT ts f t, ?_, fun t0 => rfl⟩
  rw [time_dependent_to_qutip, tdStep.eq_def, if_pos hcPlus, hexp]
  simp only [List.filter_cons, List.filter_nil, hcH0, hcST, Bool.not_false, Bool.not_true,
    if_true, if_false, reduceIte, mapME, hc0, hinner, except_ok_bind, List.foldl_nil,
    List.cons_append, List.nil_append]

/-- C2 witness: the decomposition of `Create + t·Destroy` over a
two-dimensional space yields exactly the static entry followed by the
pair, and the pyfunc coefficient evaluates like the symbol `t`. -/
theorem C2_time_decomposition_witness :
    ∃ F, time_dependent_to_qutip trivPrims 3
          (.plus [.localOp wS1 .create, .scalarTimes (.sym "t") (.localOp wS1 .destroy)])
          [wS1] "t" "pyfunc"
        = .ok (.list [.q ⟨[2], [2], idMat 2, none⟩,
            .pair ⟨[2], [2], idMat 2, none⟩ (.pyfunc F)]) ∧
      ∀ t0, F t0 []
        = (SymExpr.sym "t").evalSym (fun x => if x = "t" then some t0 else none) :=
  C2_time_decomposition trivPrims 1 (.localOp wS1 .create) (.localOp wS1 .destroy)
    (.sym "t") "t" [wS1] ⟨[2], [2], idMat 2, none⟩ ⟨[2], [2], idMat 2, none⟩
    rfl (by simp [allSymbols]) (by simp [allSymbols]) rfl rfl rfl rfl

/-- C8 witness: `convert_as='bogus'` on `t * Destroy` is rejected with the
message naming the allowed set. -/
theorem C8_convert_as_validation_witness :
    time_dependent_to_qutip trivPrims 1
        (.scalarTimes (.sym "t") (.localOp wS1 .destroy)) [wS1] "t" "bogus"
      = .error (.valueError
          "Invalid value 'bogus' for `convert_as`, must be one of 'str', 'pyfunc'") :=
  C8_convert_as_validation trivPrims 0 (.sym "t") (.localOp wS1 .destroy) [wS1] "t" "bogus"
    (List.mem_singleton.2 rfl) rfl (by simp) (by simp)

theorem zip_map_self {α β : Type} (g : α → β) :
    ∀ (l : List α), List.zip (l.map g) l = l.map (fun x => (g x, x))
  | [] => rfl
  | a :: l => by
    simp only [List.map_cons, List.zip_cons_cons, zip_map_self g l]

theorem times_factor_aux (P : QutipPrims) (fuel : ℕ) (A B : OpExpr)
    (s1 s2 : LocalSpace) (fs : HSpace) (mapping : Mapping) (cA cB : Qobj)
    (hnd : fs.Nodup) (h1 : s1 ∈ fs) (h2 : s2 ∈ fs) (hne : s1 ≠ s2)
    (hA : spaceOf A = [s1]) (hB : spaceOf B = [s2])
    (ops : List OpExpr) (hops : ops = [A, B] ∨ ops = [B, A])
    (hmap : mapping (.op (.times ops)) = none)
    (hcA : convert_to_qutip P fuel (.op A) [s1] mapping = .ok cA)
    (hcB : convert_to_qutip P fuel (.op B) [s2] mapping = .ok cB) :
    convert_to_qutip P (fuel + 1) (.op (.times ops)) fs mapping
      = qutipTensor (fs.map (fun ls =>
          if ls = s1 then cA else if ls = s2 then cB else qeyeQ ls.dim)) := by
  have hmemAB : ∀ o ∈ ops, o = A ∨ o = B := by
    rcases hops with rfl | rfl <;> intro o ho <;> simp only [List.mem_cons, List.mem_singleton, List.not_mem_nil, or_false] at ho <;> tauto
  have hfac : isTensorFactorOf (spaceOfQ (.op (.times ops))) fs = true := by
    apply isTensorFactorOf_iff.2
    intro x hx
    have hx2 : x ∈ leafSpacesL ops :=
      mem_spaceOf.1 (show x ∈ spaceOf (.times ops) from hx)
    obtain ⟨o, ho, hxo⟩ := (mem_leafSpacesL _).1 hx2
    rcases hmemAB o ho with rfl | rfl
    · have : x ∈ spaceOf o := mem_spaceOf.2 hxo
      rw [hA] at this
      simp only [List.mem_singleton] at this
      exact this ▸ h1
    · have : x ∈ spaceOf o := mem_spaceOf.2 hxo
      rw [hB] at this
      simp only [List.mem_singleton] at this
      exact this ▸ h2
  have hne21 : ([s2] : HSpace) ≠ [s1] := fun h =>
    hne (by rw [List.cons.injEq] at h; exact h.1.symm)
  have hne12 : ([s1] : HSpace) ≠ [s2] := fun h =>
    hne (by rw [List.cons.injEq] at h; exact h.1)
  have hfilt : ∀ ls : LocalSpace,
      ops.filter (fun o => decide (spaceOf o = [ls]))
        = if ls = s1 then [A] else if ls = s2 then [B] else [] := by
    intro ls
    by_cases hls1 : ls = s1
    · subst hls1
      rw [if_pos rfl]
      rcases hops with rfl | rfl
      · rw [List.filter_cons_of_pos (by simp [hA]),
          List.filter_cons_of_neg (by simp [hB, hne21]), List.filter_nil]
      · rw [List.filter_cons_of_neg (by simp [hB, hne21]),
          List.filter_cons_of_pos (by simp [hA]), List.filter_nil]
    · by_cases hls2 : ls = s2
      · subst hls2
        rw [if_neg hls1, if_pos rfl]
        rcases hops with rfl | rfl
        · rw [List.filter_cons_of_neg (by simp [hA, hne12]),
            List.filter_cons_of_pos (by simp [hB]), List.filter_nil]
        · rw [List.filter_cons_of_pos (by simp [hB]),
            List.filter_cons_of_neg (by simp [hA, hne12]), List.filter_nil]
      · rw [if_neg hls1, if_neg hls2]
        have nA : ¬(spaceOf A = [ls]) := by
          rw [hA]; intro h; exact hls1 (by injection h with e _; exact e.symm)
        have nB : ¬(spaceOf B = [ls]) := by
          rw [hB]; intro h; exact hls2 (by injection h with e _; exact e.symm)
        rcases hops with rfl | rfl <;>
          rw [List.filter_cons_of_neg (by simp [nA, nB]),
            List.filter_cons_of_neg (by simp [nA, nB]), List.filter_nil]
  have hgroups : mapME (fun ls =>
        mapME (fun o => convert_to_qutip P fuel (.op o) (spaceOf o) mapping)
          (ops.filter (fun o => decide (spaceOf o = [ls])))) fs
      = .ok (fs.map (fun ls => if ls = s1 then [cA] else if ls = s2 then [cB] else [])) := by
    apply mapME_map
    intro ls _
    rw [hfilt ls]
    by_cases hls1 : ls = s1
    · subst hls1
      rw [if_pos rfl, if_pos rfl]
      simp only [mapME, hA, hcA, except_ok_bind]
    · by_cases hls2 : ls = s2
      · subst hls2
        rw [if_neg hls1, if_neg hls1, if_pos rfl, if_pos rfl]
        simp only [mapME, hB, hcB, except_ok_bind]
      · rw [if_neg hls1, if_neg hls1, if_neg hls2, if_neg hls2]
        simp [mapME]
  have hany : (ops.any fun o => decide ((spaceOf o).length > 1)) = false := by
    rcases hops with rfl | rfl <;> simp [hA, hB]
  have hsum : ((fs.map (fun ls => if ls = s1 then [cA] else if ls = s2 then [cB] else [])).map
        List.length).sum = 2 := by
    rw [List.map_map]
    have hcongr : fs.map (List.length ∘ fun ls => if ls = s1 then [cA] else if ls = s2 then [cB] else [])
        = fs.map (fun ls => (if ls = s1 then (1:ℕ) else 0) + (if ls = s2 then (1:ℕ) else 0)) := by
      apply List.map_congr_left
      intro a _
      by_cases e1 : a = s1
      · subst e1
        simp [hne, Function.comp]
      · by_cases e2 : a = s2
        · subst e2
          simp [e1, Function.comp]
        · simp [e1, e2, Function.comp]
    rw [hcongr, sum_map_add, sum_map_ite_one fs hnd h1, sum_map_ite_one fs hnd h2]
  have hlen2 : ops.length = 2 := by rcases hops with rfl | rfl <;> rfl
  rw [convert_to_qutip, convertStep.eq_def, if_pos hfac, hmap]
  dsimp only
  rw [if_neg (by rw [hany]; simp), hgroups]
  simp only [except_ok_bind]
  rw [hsum, hlen2, if_pos rfl, zip_map_self, List.map_map]
  congr 1
  apply List.map_congr_left
  intro a _
  by_cases e1 : a = s1
  · subst e1
    simp [Function.comp, prodQ]
  · by_cases e2 : a = s2
    · subst e2
      simp [e1, Function.comp, prodQ]
    · simp [e1, e2, Function.comp]


/-- C1: for operands on distinct local factors of the ambient space, the
product converts to the tensor of the separately converted factors placed
at their canonical factor positions — identity on every idle factor —
independently of operand order. -/
theorem C1_product_factoring (P : QutipPrims) (fuel : ℕ) (A B : OpExpr)
    (s1 s2 : LocalSpace) (fs : HSpace) (mapping : Mapping) (cA cB : Qobj)
    (hnd : fs.Nodup) (h1 : s1 ∈ fs) (h2 : s2 ∈ fs) (hne : s1 ≠ s2)
    (hA : spaceOf A = [s1]) (hB : spaceOf B = [s2])
    (hmapAB : mapping (.op (.times [A, B])) = none)
    (hmapBA : mapping (.op (.times [B, A])) = none)
    (hcA : convert_to_qutip P fuel (.op A) [s1] mapping = .ok cA)
    (hcB : convert_to_qutip P fuel (.op B) [s2] mapping = .ok cB) :
    convert_to_qutip P (fuel + 1) (.op (.times [A, B])) fs mapping
        = qutipTensor (fs.map (fun ls =>
            if ls = s1 then cA else if ls = s2 then cB else qeyeQ ls.dim)) ∧
      convert_to_qutip P (fuel + 1) (.op (.times [B, A])) fs mapping
        = qutipTensor (fs.map (fun ls =>
            if ls = s1 then cA else if ls = s2 then cB else qeyeQ ls.dim)) :=
  ⟨times_factor_aux P fuel A B s1 s2 fs mapping cA cB hnd h1 h2 hne hA hB
      [A, B] (Or.inl rfl) hmapAB hcA hcB,
    times_factor_aux P fuel A B s1 s2 fs mapping cA cB hnd h1 h2 hne hA hB
      [B, A] (Or.inr rfl) hmapBA hcA hcB⟩

/-- C1 witness: `Create(s1) * Destroy(s2)` over `s1 ⊗ s2`, in both operand
orders. -/
theorem C1_product_factoring_witness :
    convert_to_qutip trivPrims 2
        (.op (.times [.localOp wS1 .create, .localOp wS2 .destroy])) [wS1, wS2] mapNone
        = qutipTensor ([wS1, wS2].map (fun ls =>
            if ls = wS1 then ⟨[2], [2], idMat 2, none⟩
            else if ls = wS2 then ⟨[3], [3], idMat 3, none⟩
            else qeyeQ ls.dim)) ∧
      convert_to_qutip trivPrims 2
        (.op (.times [.localOp wS2 .destroy, .localOp wS1 .create])) [wS1, wS2] mapNone
        = qutipTensor ([wS1, wS2].map (fun ls =>
            if ls = wS1 then ⟨[2], [2], idMat 2, none⟩
            else if ls = wS2 then ⟨[3], [3], idMat 3, none⟩
            else qeyeQ ls.dim)) :=
  C1_product_factoring trivPrims 1 (.localOp wS1 .create) (.localOp wS2 .destroy)
    wS1 wS2 [wS1, wS2] mapNone ⟨[2], [2], idMat 2, none⟩ ⟨[3], [3], idMat 3, none⟩
    (by decide) (by decide) (by decide) (by decide) rfl rfl rfl rfl rfl rfl



theorem mapME_length {α β : Type} {f : α → Except PyErr β} :
    ∀ (l : List α) (r : List β), mapME f l = .ok r → r.length = l.length
  | [], r, h => by
    simp only [mapME, Except.ok.injEq] at h
    subst h
    rfl
  | a :: l, r, h => by
    simp only [mapME] at h
    cases hfa : f a with
    | error e => rw [hfa] at h; simp at h
    | ok b =>
      rw [hfa] at h
      simp only [except_ok_bind] at h
      cases hrest : mapME f l with
      | error e => rw [hrest] at h; simp at h
      | ok bs =>
        rw [hrest] at h
        simp only [except_ok_bind, Except.ok.injEq] at h
        subst h
        simp [mapME_length l bs hrest]

theorem grouped_count_eq (fs : HSpace) (hnd : fs.Nodup) :
    ∀ (ops : List OpExpr), (∀ o ∈ ops, ∃ ls ∈ fs, spaceOf o = [ls]) →
      groupedFactorCount ops fs = ops.length
  | [], _ => by simp [groupedFactorCount]
  | o :: ops, hcov => by
    obtain ⟨ls0, hls0mem, hls0⟩ := hcov o (by simp)
    have hstep : ∀ ls : LocalSpace,
        ((o :: ops).filter (fun o2 => decide (spaceOf o2 = [ls]))).length
          = (if ls = ls0 then 1 else 0)
            + (ops.filter (fun o2 => decide (spaceOf o2 = [ls]))).length := by
      intro ls
      by_cases hls : ls = ls0
      · subst hls
        rw [List.filter_cons_of_pos (by simp [hls0]), if_pos rfl]
        simp only [List.length_cons]
        omega
      · rw [List.filter_cons_of_neg (by
            simp only [hls0, decide_eq_true_eq]
            intro h
            exact hls (by rw [List.cons.injEq] at h; exact h.1.symm)), if_neg hls]
        omega
    have ih := grouped_count_eq fs hnd ops (fun o2 ho2 => hcov o2 (by simp [ho2]))
    unfold groupedFactorCount at ih ⊢
    rw [List.map_congr_left (fun a _ => hstep a), sum_map_add,
      sum_map_ite_one fs hnd hls0mem, ih]
    simp [Nat.add_comm]

/-- C9: in the conversion of an operator product whose operands each act
on a single local space (no distributive expansion) and whose space is a
tensor factor of the ambient space, the number of factors consumed by the
per-local-space grouping equals the number of product operands, so the
`assert ck == len(expr.operands)` in the product branch never fails
(provided no operand's own conversion propagates a failed assertion of its
own). -/
theorem C9_times_grouping_invariant (P : QutipPrims) (fuel : ℕ) (ops : List OpExpr)
    (fs : HSpace) (mapping : Mapping)
    (hnd : fs.Nodup)
    (hloc : ∀ o ∈ ops, ∃ ls, spaceOf o = [ls])
    (hfac : isTensorFactorOf (spaceOf (.times ops)) fs = true) :
    groupedFactorCount ops fs = ops.length ∧
      ((∀ o ∈ ops,
          convert_to_qutip P fuel (.op o) (spaceOf o) mapping ≠ .error .assertionError) →
        convert_to_qutip P (fuel + 1) (.op (.times ops)) fs mapping
          ≠ .error .assertionError) := by
  have hcov : ∀ o ∈ ops, ∃ ls ∈ fs, spaceOf o = [ls] := by
    intro o ho
    obtain ⟨ls, hls⟩ := hloc o ho
    refine ⟨ls, ?_, hls⟩
    have hm1 : ls ∈ spaceOf o := by rw [hls]; exact List.mem_singleton.2 rfl
    have hm2 : ls ∈ leafSpacesL ops := (mem_leafSpacesL ops).2 ⟨o, ho, mem_spaceOf.1 hm1⟩
    exact isTensorFactorOf_iff.1 hfac ls
      (mem_spaceOf.2 (show ls ∈ leafSpaces (.times ops) from hm2))
  have hcount := grouped_count_eq fs hnd ops hcov
  refine ⟨hcount, ?_⟩
  intro hconv
  rw [convert_to_qutip, convertStep.eq_def,
    if_pos (show isTensorFactorOf (spaceOfQ (.op (.times ops))) fs = true from hfac)]
  cases hm : mapping (.op (.times ops)) with
  | some v => cases v <;> simp
  | none =>
    dsimp only
    have hany : (ops.any fun o => decide ((spaceOf o).length > 1)) = false := by
      rw [List.any_eq_false]
      intro o ho
      obtain ⟨ls, hls⟩ := hloc o ho
      simp [hls]
    rw [if_neg (by rw [hany]; simp)]
    cases hg : mapME (fun ls =>
        mapME (fun o => convert_to_qutip P fuel (.op o) (spaceOf o) mapping)
          (ops.filter (fun o => decide (spaceOf o = [ls])))) fs with
    | error err =>
      simp only [hg, except_error_bind]
      intro he
      have herr : err = .assertionError := by injection he
      subst herr
      obtain ⟨ls, _, hinner⟩ := mapME_error_source fs hg
      obtain ⟨o, ho, hco⟩ := mapME_error_source _ hinner
      exact hconv o (List.mem_of_mem_filter ho) hco
    | ok groups =>
      simp only [hg, except_ok_bind]
      have hck : (groups.map List.length).sum = groupedFactorCount ops fs := by
        unfold groupedFactorCount
        have hf2 := mapME_forall₂ fs groups hg
        clear hg hnd hfac hcov hcount
        induction hf2 with
        | nil => rfl
        | cons hR htail ihh =>
          simp only [List.map_cons, List.sum_cons]
          rw [mapME_length _ _ hR, ihh]
      rw [hck, hcount, if_pos rfl]
      exact qutipTensor_ne_bad (by simp) _



/-- C9 witness: a three-operand product over `s1 ⊗ s2` with two operands
acting on `s1` and one on `s2`. -/
theorem C9_times_grouping_invariant_witness :
    groupedFactorCount [.localOp wS1 .create, .localOp wS1 .destroy, .localOp wS2 .destroy]
        [wS1, wS2] = 3 ∧
      ((∀ o ∈ ([.localOp wS1 .create, .localOp wS1 .destroy,
            .localOp wS2 .destroy] : List OpExpr),
          convert_to_qutip trivPrims 1 (.op o) (spaceOf o) mapNone
            ≠ .error .assertionError) →
        convert_to_qutip trivPrims 2
          (.op (.times [.localOp wS1 .create, .localOp wS1 .destroy,
            .localOp wS2 .destroy]))
          [wS1, wS2] mapNone ≠ .error .assertionError) :=
  C9_times_grouping_invariant trivPrims 1
    [.localOp wS1 .create, .localOp wS1 .destroy, .localOp wS2 .destroy]
    [wS1, wS2] mapNone (by decide)
    (fun o ho => by
      simp only [List.mem_cons, List.not_mem_nil, or_false] at ho
      rcases ho with rfl | rfl | rfl
      · exact ⟨wS1, rfl⟩
      · exact ⟨wS1, rfl⟩
      · exact ⟨wS2, rfl⟩)
    (by decide)


end QNET
